import Mathlib

/-!
Verification of the response-parsing core of `app/app.py`: the two pure
extractors `extract_tables` and `extract_sections`.  Text is modelled as
`List Char` internally (ASCII fragment of Python's `str`); the public
functions take Lean `String`s.  Python's `re` backtracking search for the
table pattern `\|.*?\|[\r\n][-|:\s]+[\r\n](?:\|.*?\|[\r\n])+` is embedded as
a CPS backtracking matcher whose alternative order reproduces the engine's
lazy/greedy preferences.  `pandas.DataFrame` construction is modelled as
succeeding exactly when every row has as many cells as the header (the spec
leaves the ragged-row outcome explicitly unspecified, see its section 9).
-/

namespace App

abbrev LC := List Char

/-- Python `str.strip()` whitespace characters (ASCII fragment). -/
def isPyWs (c : Char) : Bool :=
  c == ' ' || c == '\t' || c == '\n' || c == '\r' || c == '\x0b' || c == '\x0c'

def isPipeC (c : Char) : Bool := c == '|'

/-- the regex `.` : any character except a line feed. -/
def isDotC (c : Char) : Bool := !(c == '\n')

/-- the regex class `[\r\n]`. -/
def isNlC (c : Char) : Bool := c == '\r' || c == '\n'

/-- the regex class `[-|:\s]` of the separator line. -/
def isSepC (c : Char) : Bool := c == '-' || c == '|' || c == ':' || isPyWs c

/-- the character set of `line.strip('*# \n')`. -/
def isTitleStripC (c : Char) : Bool := c == '*' || c == '#' || c == ' ' || c == '\n'

/-- Drop matching characters from the right end of a list. -/
def dropEndWhile (p : Char → Bool) (l : LC) : LC := (l.reverse.dropWhile p).reverse

/-- Python `str.strip` with the given character predicate: drop from both ends. -/
def stripBoth (p : Char → Bool) (l : LC) : LC := dropEndWhile p (l.dropWhile p)

/-- Python `line.strip()` (no argument: whitespace). -/
def pyStripWs (l : LC) : LC := stripBoth isPyWs l

/-- Python `str.split(sep)` for a one-character separator:
`"".split(c)` is `[""]`, and a trailing separator yields a trailing `""`. -/
def splitOnC (sep : Char) : LC → List LC
  | [] => [[]]
  | c :: r =>
    if c = sep then [] :: splitOnC sep r
    else
      match splitOnC sep r with
      | [] => [[c]]
      | l :: ls => (c :: l) :: ls

def splitNl : LC → List LC := splitOnC '\n'

/-- Python `'\n'.join(lines)`. -/
def joinNl : List LC → LC
  | [] => []
  | [l] => l
  | l :: l₂ :: ls => l ++ '\n' :: joinNl (l₂ :: ls)

/-- Python `xs[1:-1]`: drop the first and the last element. -/
def dropEnds : List α → List α
  | [] => []
  | _ :: r => r.dropLast

/-! ### Section extractor (`extract_sections`, app.py lines 81-106) -/

/-- `\d+\.` at the start: after at least one digit a `.` must follow.
(`dotAfterDigits` is called on the rest after the first, checked, digit.) -/
def dotAfterDigits : LC → Bool
  | [] => false
  | c :: r => if c = '.' then true else if c.isDigit then dotAfterDigits r else false

def startsDigitsDot : LC → Bool
  | [] => false
  | c :: r => c.isDigit && dotAfterDigits r

def startsHash : LC → Bool
  | '#' :: _ => true
  | _ => false

def startsStars : LC → Bool
  | '*' :: '*' :: _ => true
  | _ => false

/-- `re.match(r'^\d+\.|\#\#?|^\*\*', line.strip())` as a Boolean: the stripped
line starts with digits followed by `.`, or with `#`, or with `**`. -/
def isHeading (line : LC) : Bool :=
  let t := pyStripWs line
  startsDigitsDot t || startsHash t || startsStars t

/-- Ordered-dict insertion: `sections[k] = v` on a Python `dict` overwrites the
value in place when the key exists and appends at the end otherwise. -/
def insertS [DecidableEq α] : List (α × β) → α → β → List (α × β)
  | [], k, v => [(k, v)]
  | p :: r, k, v => if p.1 = k then (k, v) :: r else p :: insertS r k v

/-- First-match association lookup (keys of the result mapping are unique). -/
def lookupS [DecidableEq α] : List (α × β) → α → Option β
  | [], _ => none
  | p :: r, k => if p.1 = k then some p.2 else lookupS r k

/-- State of the line scanner of `extract_sections`: the ordered mapping built
so far, the current section title (`None` before the first heading), and the
accumulated body lines. -/
structure SecSt where
  sections : List (String × String)
  cur : Option LC
  content : List LC
deriving DecidableEq, Repr

/-- Python truthiness of `current_section`: a `str` is truthy iff non-empty,
`None` is falsy. -/
def truthyCur : Option LC → Bool
  | none => false
  | some t => !t.isEmpty

/-- `'\n'.join(current_content).strip()`. -/
def bodyOf (content : List LC) : LC := pyStripWs (joinNl content)

/-- The commit step `if current_section and current_content: content = ...;
if content: sections[current_section] = content`, run both at a new heading
and at end of input. -/
def commitSt (st : SecSt) : List (String × String) :=
  match st.cur with
  | none => st.sections
  | some t =>
    if t.isEmpty then st.sections
    else if st.content.isEmpty then st.sections
    else
      let body := bodyOf st.content
      if body.isEmpty then st.sections
      else insertS st.sections ⟨t⟩ ⟨body⟩

/-- One iteration of `for line in text.split('\n')`. -/
def secStep (st : SecSt) (line : LC) : SecSt :=
  if isHeading line then
    ⟨commitSt st, some (stripBoth isTitleStripC line), []⟩
  else if truthyCur st.cur then
    ⟨st.sections, st.cur, st.content ++ [line]⟩
  else st

def initSt : SecSt := ⟨[], none, []⟩

/-- `extract_sections` (app.py lines 81-106). -/
def extract_sections (s : String) : List (String × String) :=
  commitSt ((splitNl s.data).foldl secStep initSt)

/-- The (title, body) pair the commit step would store, as a zero- or
one-element list; instrumentation used only to specify commit order. -/
def commitEv (st : SecSt) : List (String × String) :=
  match st.cur with
  | none => []
  | some t =>
    if t.isEmpty then []
    else if st.content.isEmpty then []
    else
      let body := bodyOf st.content
      if body.isEmpty then []
      else [(⟨t⟩, ⟨body⟩)]

/-- `secStep` paired with the trace of committed (title, body) events. -/
def secStepT (p : SecSt × List (String × String)) (line : LC) :
    SecSt × List (String × String) :=
  (secStep p.1 line, if isHeading line then p.2 ++ commitEv p.1 else p.2)

/-- The sequence of commit events of `extract_sections`, in document order
(duplicate titles appear once per commit). -/
def secTrace (s : String) : List (String × String) :=
  let r := (splitNl s.data).foldl secStepT (initSt, [])
  r.2 ++ commitEv r.1

/-- Replay a commit trace through ordered-dict insertion. -/
def foldIns [DecidableEq α] (l : List (α × β)) : List (α × β) :=
  l.foldl (fun acc p => insertS acc p.1 p.2) []

/-- Keys in order of first commit: later commits of a seen key change nothing. -/
def firstKeysAux [DecidableEq α] (acc : List α) (l : List α) : List α :=
  l.foldl (fun ks k => if k ∈ ks then ks else ks ++ [k]) acc

def firstKeys [DecidableEq α] (l : List α) : List α := firstKeysAux [] l

/-- The value of the last entry of `l` whose key is `k` (last-write-wins). -/
def finalVal [DecidableEq α] : List (α × β) → α → Option β
  | [], _ => none
  | p :: r, k =>
    match finalVal r k with
    | some v => some v
    | none => if p.1 = k then some p.2 else none

/-! ### Table extractor (`extract_tables`, app.py lines 61-79) -/

/-- A parsed markdown table: the model of the `pandas.DataFrame` built from
one matched block. -/
structure Table where
  columns : List String
  rows : List (List String)
deriving DecidableEq, Repr

/-- Backtracking matcher for a single character class. -/
def mSym (p : Char → Bool) (k : LC → Option LC) : LC → Option LC
  | [] => none
  | c :: r => if p c then k r else none

/-- Lazy star `p*?`: try the continuation first, then consume one more. -/
def mStarLazy (p : Char → Bool) (k : LC → Option LC) : LC → Option LC
  | [] => k []
  | c :: r =>
    match k (c :: r) with
    | some res => some res
    | none => if p c then mStarLazy p k r else none

/-- Greedy star `p*`: consume as much as possible, backtracking to `k`. -/
def mStarGreedy (p : Char → Bool) (k : LC → Option LC) : LC → Option LC
  | [] => k []
  | c :: r =>
    if p c then
      match mStarGreedy p k r with
      | some res => some res
      | none => k (c :: r)
    else k (c :: r)

/-- One data row `\|.*?\|[\r\n]`. -/
def mRow (k : LC → Option LC) : LC → Option LC :=
  mSym isPipeC (mStarLazy isDotC (mSym isPipeC (mSym isNlC k)))

/-- Greedy star over data rows; the pattern ends here, so the continuation is
acceptance.  `fuel` bounds the number of rows; each row consumes at least
four characters, so fuel equal to the suffix length never runs out. -/
def mRowsStar : Nat → LC → Option LC
  | 0, s => some s
  | fuel + 1, s =>
    match mRow (mRowsStar fuel) s with
    | some r => some r
    | none => some s

/-- Greedy plus `(?:\|.*?\|[\r\n])+`. -/
def mPlusRows (s : LC) : Option LC :=
  mRow (fun r => mRowsStar r.length r) s

/-- Match of `\|.*?\|[\r\n][-|:\s]+[\r\n](?:\|.*?\|[\r\n])+` at the start of
`s`, returning the suffix after the preferred (Python) match. -/
def mTable : LC → Option LC :=
  mSym isPipeC (mStarLazy isDotC (mSym isPipeC (mSym isNlC
    (mSym isSepC (mStarGreedy isSepC (mSym isNlC mPlusRows))))))

/-- `re.finditer`: scan left to right, emit the leftmost match, resume at its
end.  `fuel` bounds the iterations; every step either advances one character
or consumes a non-empty match, so fuel `length + 1` never runs out. -/
def reFindIter : Nat → LC → List LC
  | 0, _ => []
  | _ + 1, [] => []
  | fuel + 1, c :: r =>
    match mTable (c :: r) with
    | some suffix =>
      ((c :: r).take ((c :: r).length - suffix.length)) :: reFindIter fuel suffix
    | none => reFindIter fuel r

/-- The matched table blocks of the input, in order of first appearance. -/
def blocksOf (s : String) : List LC := reFindIter (s.data.length + 1) s.data

/-- `line.split('|')[1:-1]` with each field stripped. -/
def cells (l : LC) : List String :=
  (dropEnds (splitOnC '|' l)).map (fun f => ⟨pyStripWs f⟩)

/-- The `try` body for one block: strip and keep the non-blank lines, read the
column names from the first, the rows from the third onward, and build the
`DataFrame`.  Construction fails (raises, in Python) when a row's cell count
differs from the header's; the spec leaves the exact `pandas` ragged-row
outcome unspecified (section 9), and this model makes any mismatch an error. -/
def parseBlock (block : LC) : Except String Table :=
  let lines := ((splitNl block).map pyStripWs).filter (fun l => !l.isEmpty)
  match lines with
  | [] => .error "list index out of range"
  | l0 :: rest =>
    let headers := cells l0
    let data := (rest.drop 1).map cells
    if data.all (fun row => row.length == headers.length) then
      .ok ⟨headers, data⟩
    else .error "table construction failed"

/-- One iteration of the `for table_match in re.finditer(...)` loop: append
the parsed table, or record the `st.error` diagnostic and continue. -/
def tableStep (acc : List Table × List String) (b : LC) :
    List Table × List String :=
  match parseBlock b with
  | .ok t => (acc.1 ++ [t], acc.2)
  | .error e => (acc.1, acc.2 ++ ["Error parsing table: " ++ e])

def runTables (bs : List LC) : List Table × List String :=
  bs.foldl tableStep ([], [])

/-- `extract_tables` (app.py lines 61-79): the returned list of tables. -/
def extract_tables (s : String) : List Table := (runTables (blocksOf s)).1

/-- The non-fatal `st.error` diagnostics emitted during `extract_tables`. -/
def tableDiags (s : String) : List String := (runTables (blocksOf s)).2

/-- The value of `parseBlock` as an `Option`. -/
def parsedTable (b : LC) : Option Table :=
  match parseBlock b with
  | .ok t => some t
  | .error _ => none

/-- The diagnostic of `parseBlock` as an `Option`. -/
def parseDiag (b : LC) : Option String :=
  match parseBlock b with
  | .ok _ => none
  | .error e => some ("Error parsing table: " ++ e)

/-! ### The declarative shape of a matched block -/

/-- A pipe-delimited data line with its terminating line break:
`|` … `|` followed by CR or LF, no LF between the pipes. -/
def RowShape (r : LC) : Prop :=
  ∃ mid c, r = '|' :: (mid ++ ['|', c]) ∧ (∀ x ∈ mid, isDotC x = true) ∧
    isNlC c = true

def rowsFlat : List LC → LC
  | [] => []
  | r :: rs => r ++ rowsFlat rs

/-- The declarative content of the table pattern: a pipe-delimited header
line, a line break, a non-empty separator stretch of pipes, hyphens, colons
and whitespace, a line break, and at least one pipe-delimited data line. -/
def BlockShape (m : LC) : Prop :=
  ∃ hmid nl₁ sep nl₂ rows,
    m = '|' :: (hmid ++ '|' :: nl₁ :: (sep ++ nl₂ :: rowsFlat rows)) ∧
    (∀ x ∈ hmid, isDotC x = true) ∧ isNlC nl₁ = true ∧
    sep ≠ [] ∧ (∀ x ∈ sep, isSepC x = true) ∧ isNlC nl₂ = true ∧
    rows ≠ [] ∧ (∀ r ∈ rows, RowShape r)

/-- `b` occurs contiguously inside `s`. -/
def OccursIn (b s : LC) : Prop := ∃ pre post, s = pre ++ (b ++ post)

/-! ### Generic facts about ordered-dict insertion -/

theorem mem_insertS [DecidableEq α] {l : List (α × β)} {k : α} {v : β} {p : α × β}
    (h : p ∈ insertS l k v) : p = (k, v) ∨ p ∈ l := by
  induction l with
  | nil => simpa [insertS] using h
  | cons q r ih =>
    simp only [insertS] at h
    by_cases hq : q.1 = k
    · rw [if_pos hq] at h
      rcases List.mem_cons.mp h with h | h
      · exact Or.inl h
      · exact Or.inr (List.mem_cons_of_mem _ h)
    · rw [if_neg hq] at h
      rcases List.mem_cons.mp h with h | h
      · exact Or.inr (h ▸ List.mem_cons_self _ _)
      · rcases ih h with h' | h'
        · exact Or.inl h'
        · exact Or.inr (List.mem_cons_of_mem _ h')

theorem keys_insertS [DecidableEq α] (l : List (α × β)) (k : α) (v : β) :
    (insertS l k v).map Prod.fst =
      if k ∈ l.map Prod.fst then l.map Prod.fst else l.map Prod.fst ++ [k] := by
  induction l with
  | nil => simp [insertS]
  | cons q r ih =>
    by_cases hq : q.1 = k
    · simp [insertS, hq]
    · by_cases hk : k ∈ r.map Prod.fst <;>
        simp [insertS, hq, hk, ih, Ne.symm hq]

theorem lookupS_insertS [DecidableEq α] (l : List (α × β)) (k k' : α) (v : β) :
    lookupS (insertS l k v) k' = if k = k' then some v else lookupS l k' := by
  induction l with
  | nil => simp [insertS, lookupS]
  | cons q r ih =>
    simp only [insertS]
    by_cases hq : q.1 = k
    · rw [if_pos hq]
      by_cases hk : k = k'
      · simp [lookupS, hk]
      · have hq' : ¬ q.1 = k' := fun h => hk (hq.symm.trans h)
        simp [lookupS, hk, hq']
    · rw [if_neg hq]
      by_cases hq' : q.1 = k'
      · have hk : ¬ k = k' := fun h => hq (hq'.trans h.symm)
        simp [lookupS, hk, hq']
      · simp [lookupS, hq', ih]

theorem lookupS_foldl [DecidableEq α] :
    ∀ (l acc : List (α × β)) (k : α),
      lookupS (l.foldl (fun a p => insertS a p.1 p.2) acc) k =
        match finalVal l k with
        | some v => some v
        | none => lookupS acc k
  | [], acc, k => by simp [finalVal]
  | p :: r, acc, k => by
    rw [List.foldl_cons, lookupS_foldl r _ k]
    show _ = match finalVal (p :: r) k with
      | some v => some v
      | none => lookupS acc k
    simp only [finalVal]
    cases hfv : finalVal r k with
    | some v => rfl
    | none =>
      rw [lookupS_insertS]
      by_cases hk : p.1 = k <;> simp [hk]

theorem keys_foldl [DecidableEq α] :
    ∀ (l acc : List (α × β)),
      (l.foldl (fun a p => insertS a p.1 p.2) acc).map Prod.fst =
        firstKeysAux (acc.map Prod.fst) (l.map Prod.fst)
  | [], acc => by simp [firstKeysAux]
  | p :: r, acc => by
    rw [List.foldl_cons, keys_foldl r _]
    simp only [List.map_cons, firstKeysAux, List.foldl_cons, keys_insertS]

theorem mem_firstKeysAux [DecidableEq α] :
    ∀ (l acc : List α) (a : α), a ∈ firstKeysAux acc l ↔ a ∈ acc ∨ a ∈ l
  | [], acc, a => by simp [firstKeysAux]
  | k :: l, acc, a => by
    have step : firstKeysAux acc (k :: l) =
        firstKeysAux (if k ∈ acc then acc else acc ++ [k]) l := by
      simp [firstKeysAux]
    rw [step, mem_firstKeysAux l _ a]
    by_cases hk : k ∈ acc
    · rw [if_pos hk]
      constructor
      · rintro (h | h)
        · exact Or.inl h
        · exact Or.inr (List.mem_cons_of_mem _ h)
      · rintro (h | h)
        · exact Or.inl h
        · rcases List.mem_cons.mp h with h | h
          · exact Or.inl (h ▸ hk)
          · exact Or.inr h
    · rw [if_neg hk]
      constructor
      · rintro (h | h)
        · rcases List.mem_append.mp h with h | h
          · exact Or.inl h
          · exact Or.inr (List.mem_cons.mpr (Or.inl (List.mem_singleton.mp h)))
        · exact Or.inr (List.mem_cons_of_mem _ h)
      · rintro (h | h)
        · exact Or.inl (List.mem_append.mpr (Or.inl h))
        · rcases List.mem_cons.mp h with h | h
          · exact Or.inl (List.mem_append.mpr (Or.inr (by simp [h])))
          · exact Or.inr h

theorem nodup_firstKeysAux [DecidableEq α] :
    ∀ (l acc : List α), acc.Nodup → (firstKeysAux acc l).Nodup
  | [], acc, h => h
  | k :: l, acc, h => by
    have step : firstKeysAux acc (k :: l) =
        firstKeysAux (if k ∈ acc then acc else acc ++ [k]) l := by
      simp [firstKeysAux]
    rw [step]
    by_cases hk : k ∈ acc
    · rw [if_pos hk]; exact nodup_firstKeysAux l acc h
    · rw [if_neg hk]
      refine nodup_firstKeysAux l _ ?_
      rw [List.nodup_append]
      exact ⟨h, List.nodup_singleton k,
        fun _ ha hb => hk ((List.mem_singleton.mp hb) ▸ ha)⟩

/-! ### The section machine commits through ordered-dict insertion -/

theorem secStep_sections_of_not_heading {st : SecSt} {line : LC}
    (h : isHeading line = false) : (secStep st line).sections = st.sections := by
  cases htc : truthyCur st.cur <;> simp [secStep, h, htc]

theorem commitSt_eq (st : SecSt) :
    commitSt st = (commitEv st).foldl (fun a p => insertS a p.1 p.2) st.sections := by
  cases hc : st.cur with
  | none => simp [commitSt, commitEv, hc]
  | some t =>
    by_cases h1 : t.isEmpty <;> by_cases h2 : st.content.isEmpty <;>
      by_cases h3 : (bodyOf st.content).isEmpty <;>
      simp [commitSt, commitEv, hc, h1, h2, h3]

theorem foldl_secStepT_fst :
    ∀ (ls : List LC) (p : SecSt × List (String × String)),
      (ls.foldl secStepT p).1 = ls.foldl secStep p.1
  | [], _ => rfl
  | l :: ls, p => by
    rw [List.foldl_cons, List.foldl_cons, foldl_secStepT_fst ls]
    rfl

theorem sections_eq_foldIns_aux :
    ∀ (ls : List LC) (p : SecSt × List (String × String)),
      p.1.sections = p.2.foldl (fun a q => insertS a q.1 q.2) [] →
      (ls.foldl secStepT p).1.sections =
        (ls.foldl secStepT p).2.foldl (fun a q => insertS a q.1 q.2) []
  | [], _, h => h
  | l :: ls, p, h => by
    rw [List.foldl_cons]
    apply sections_eq_foldIns_aux ls
    show (secStep p.1 l).sections =
      (if isHeading l then p.2 ++ commitEv p.1 else p.2).foldl
        (fun a q => insertS a q.1 q.2) []
    cases hh : isHeading l with
    | true =>
      rw [if_pos rfl, List.foldl_append, ← h]
      show (secStep p.1 l).sections = _
      rw [show secStep p.1 l = ⟨commitSt p.1, some (stripBoth isTitleStripC l), []⟩
        from by simp [secStep, hh]]
      exact commitSt_eq p.1
    | false =>
      rw [if_neg (by simp), secStep_sections_of_not_heading hh, h]

theorem extract_sections_eq_foldIns (s : String) :
    extract_sections s = foldIns (secTrace s) := by
  have h := sections_eq_foldIns_aux (splitNl s.data) (initSt, []) rfl
  have hf := foldl_secStepT_fst (splitNl s.data) (initSt, [])
  show commitSt ((splitNl s.data).foldl secStep initSt) = foldIns (secTrace s)
  rw [← hf, commitSt_eq]
  show _ = foldIns ((((splitNl s.data).foldl secStepT (initSt, [])).2) ++
      commitEv (((splitNl s.data).foldl secStepT (initSt, [])).1))
  unfold foldIns
  rw [List.foldl_append, ← h]

/-! ### Invariants of the section machine -/

theorem string_mk_ne_empty {l : LC} (h : l ≠ []) : (⟨l⟩ : String) ≠ "" :=
  fun he => h (congrArg String.data he)

/-- The four guards of the commit step: either nothing is stored, or the
non-empty title of the current section is stored with a non-empty body. -/
theorem commitSt_cases (st : SecSt) :
    commitSt st = st.sections ∨
      ∃ t, st.cur = some t ∧ t ≠ [] ∧ bodyOf st.content ≠ [] ∧
        commitSt st = insertS st.sections ⟨t⟩ ⟨bodyOf st.content⟩ := by
  cases hc : st.cur with
  | none => exact Or.inl (by simp [commitSt, hc])
  | some t =>
    by_cases h1 : t.isEmpty
    · exact Or.inl (by simp [commitSt, hc, h1])
    · by_cases h2 : st.content.isEmpty
      · exact Or.inl (by simp [commitSt, hc, h1, h2])
      · by_cases h3 : (bodyOf st.content).isEmpty
        · exact Or.inl (by simp [commitSt, hc, h1, h2, h3])
        · refine Or.inr ⟨t, rfl, ?_, ?_, by simp [commitSt, hc, h1, h2, h3]⟩
          · exact fun he => h1 (by simp [he])
          · exact fun he => h3 (by simp [he])

/-- A property holding of every stored entry is preserved by the commit step,
provided it holds of every (non-empty title, non-empty body) pair. -/
theorem commit_entry_sound {P : String × String → Prop}
    (hP : ∀ (t b : LC), t ≠ [] → b ≠ [] → P (⟨t⟩, ⟨b⟩))
    {st : SecSt} (h : ∀ p ∈ st.sections, P p) : ∀ p ∈ commitSt st, P p := by
  rcases commitSt_cases st with heq | ⟨t, _, ht, hb, heq⟩
  · rw [heq]; exact h
  · rw [heq]
    intro p hp
    rcases mem_insertS hp with rfl | hp'
    · exact hP t _ ht hb
    · exact h p hp'

theorem step_entry_sound {P : String × String → Prop}
    (hP : ∀ (t b : LC), t ≠ [] → b ≠ [] → P (⟨t⟩, ⟨b⟩))
    {st : SecSt} (h : ∀ p ∈ st.sections, P p) (line : LC) :
    ∀ p ∈ (secStep st line).sections, P p := by
  by_cases hh : isHeading line = true
  · have hsec : (secStep st line).sections = commitSt st := by simp [secStep, hh]
    rw [hsec]
    exact commit_entry_sound hP h
  · rw [secStep_sections_of_not_heading (Bool.not_eq_true _ ▸ hh)]
    exact h

theorem fold_entry_sound {P : String × String → Prop}
    (hP : ∀ (t b : LC), t ≠ [] → b ≠ [] → P (⟨t⟩, ⟨b⟩)) :
    ∀ (ls : List LC) (st : SecSt), (∀ p ∈ st.sections, P p) →
      ∀ p ∈ (ls.foldl secStep st).sections, P p
  | [], _, h => h
  | l :: ls, st, h => by
    rw [List.foldl_cons]
    exact fold_entry_sound hP ls _ (step_entry_sound hP h l)

/-- Every entry of the result mapping is a (non-empty title, non-empty body)
pair. -/
theorem extract_sections_entry_sound {P : String × String → Prop}
    (hP : ∀ (t b : LC), t ≠ [] → b ≠ [] → P (⟨t⟩, ⟨b⟩)) (s : String) :
    ∀ p ∈ extract_sections s, P p := by
  unfold extract_sections
  refine commit_entry_sound hP (fold_entry_sound hP (splitNl s.data) initSt ?_)
  intro p hp
  simp [initSt] at hp

/-- A title derived, by the stripping rule of the source, from a heading line
of `L`. -/
def TitleFrom (L : List LC) (t : LC) : Prop :=
  ∃ line ∈ L, isHeading line = true ∧ t = stripBoth isTitleStripC line

theorem secStep_cur_of_not_heading {st : SecSt} {line : LC}
    (h : isHeading line = false) : (secStep st line).cur = st.cur := by
  cases htc : truthyCur st.cur <;> simp [secStep, h, htc]

theorem prov_step {L : List LC} {st : SecSt} {line : LC} (hline : line ∈ L)
    (h1 : ∀ p ∈ st.sections, ∃ u, TitleFrom L u ∧ p.1 = (⟨u⟩ : String))
    (h2 : ∀ t, st.cur = some t → TitleFrom L t) :
    (∀ p ∈ (secStep st line).sections, ∃ u, TitleFrom L u ∧ p.1 = (⟨u⟩ : String)) ∧
      (∀ t, (secStep st line).cur = some t → TitleFrom L t) := by
  by_cases hh : isHeading line = true
  · have hsec : secStep st line =
        ⟨commitSt st, some (stripBoth isTitleStripC line), []⟩ := by
      simp [secStep, hh]
    rw [hsec]
    constructor
    · intro p hp
      rcases commitSt_cases st with heq | ⟨t, hcur, _, _, heq⟩
      · rw [heq] at hp; exact h1 p hp
      · rw [heq] at hp
        rcases mem_insertS hp with rfl | hp'
        · exact ⟨t, h2 t hcur, rfl⟩
        · exact h1 p hp'
    · intro t ht
      cases ht
      exact ⟨line, hline, hh, rfl⟩
  · have hh' : isHeading line = false := Bool.not_eq_true _ ▸ hh
    rw [secStep_sections_of_not_heading hh', secStep_cur_of_not_heading hh']
    exact ⟨h1, h2⟩

theorem prov_fold {L : List LC} :
    ∀ (ls : List LC) (st : SecSt), (∀ l ∈ ls, l ∈ L) →
      (∀ p ∈ st.sections, ∃ u, TitleFrom L u ∧ p.1 = (⟨u⟩ : String)) →
      (∀ t, st.cur = some t → TitleFrom L t) →
      (∀ p ∈ (ls.foldl secStep st).sections,
          ∃ u, TitleFrom L u ∧ p.1 = (⟨u⟩ : String)) ∧
        (∀ t, (ls.foldl secStep st).cur = some t → TitleFrom L t)
  | [], _, _, h1, h2 => ⟨h1, h2⟩
  | l :: ls, st, hmem, h1, h2 => by
    rw [List.foldl_cons]
    obtain ⟨h1', h2'⟩ := prov_step (hmem l (List.mem_cons_self _ _)) h1 h2
    exact prov_fold ls _ (fun x hx => hmem x (List.mem_cons_of_mem _ hx)) h1' h2'

/-- Every key of the result mapping is the title-strip of a heading line of
the input. -/
theorem extract_sections_key_prov (s : String) :
    ∀ p ∈ extract_sections s,
      ∃ line ∈ splitNl s.data, isHeading line = true ∧
        p.1 = (⟨stripBoth isTitleStripC line⟩ : String) := by
  intro p hp
  obtain ⟨h1, h2⟩ := prov_fold (L := splitNl s.data) (splitNl s.data) initSt
    (fun _ hx => hx) (by intro p hp; simp [initSt] at hp)
    (by intro t ht; simp [initSt] at ht)
  have hp' : p ∈ commitSt ((splitNl s.data).foldl secStep initSt) := hp
  have : ∃ u, TitleFrom (splitNl s.data) u ∧ p.1 = (⟨u⟩ : String) := by
    rcases commitSt_cases ((splitNl s.data).foldl secStep initSt) with heq |
        ⟨t, hcur, _, _, heq⟩
    · rw [heq] at hp'; exact h1 p hp'
    · rw [heq] at hp'
      rcases mem_insertS hp' with rfl | hpp
      · exact ⟨t, h2 t hcur, rfl⟩
      · exact h1 p hpp
  obtain ⟨u, ⟨line, hlm, hlh, hls⟩, hpu⟩ := this
  exact ⟨line, hlm, hlh, hls ▸ hpu⟩

/-- A run over lines none of which is a heading leaves the initial state
unchanged. -/
theorem no_heading_fold :
    ∀ (ls : List LC), (∀ l ∈ ls, isHeading l = false) →
      ls.foldl secStep initSt = initSt
  | [], _ => rfl
  | l :: ls, h => by
    rw [List.foldl_cons]
    have hstep : secStep initSt l = initSt := by
      simp [secStep, h l (List.mem_cons_self _ _), truthyCur, initSt]
    rw [hstep]
    exact no_heading_fold ls (fun x hx => h x (List.mem_cons_of_mem _ hx))

/-- With an empty current title, a non-heading line is discarded: the state
does not change at all. -/
theorem secStep_discard {st : SecSt} {line : LC} (hc : st.cur = some [])
    (hh : isHeading line = false) : secStep st line = st := by
  simp [secStep, hh, truthyCur, hc]

/-- With an empty current title, the commit step stores nothing. -/
theorem commitSt_empty_title {st : SecSt} (hc : st.cur = some []) :
    commitSt st = st.sections := by
  simp [commitSt, hc]

/-! ### Soundness of the table-pattern matcher -/

theorem mSym_sound {p : Char → Bool} {k : LC → Option LC} {s r : LC}
    (h : mSym p k s = some r) :
    ∃ c s', s = c :: s' ∧ p c = true ∧ k s' = some r := by
  cases s with
  | nil => simp [mSym] at h
  | cons c s' =>
    by_cases hc : p c = true
    · exact ⟨c, s', rfl, hc, by simpa [mSym, hc] using h⟩
    · simp [mSym, hc] at h

theorem mStarLazy_sound {p : Char → Bool} {k : LC → Option LC} :
    ∀ {s r : LC}, mStarLazy p k s = some r →
      ∃ pre s', s = pre ++ s' ∧ (∀ c ∈ pre, p c = true) ∧ k s' = some r := by
  intro s
  induction s with
  | nil =>
    intro r h
    exact ⟨[], [], rfl, by simp, by simpa [mStarLazy] using h⟩
  | cons c t ih =>
    intro r h
    cases hk : k (c :: t) with
    | some res =>
      refine ⟨[], c :: t, rfl, by simp, ?_⟩
      rw [hk]
      simpa [mStarLazy, hk] using h
    | none =>
      have h' : (if p c then mStarLazy p k t else none) = some r := by
        simpa [mStarLazy, hk] using h
      by_cases hc : p c = true
      · rw [if_pos hc] at h'
        obtain ⟨pre, s', ht, hpre, hks⟩ := ih h'
        refine ⟨c :: pre, s', by rw [ht]; rfl, ?_, hks⟩
        intro x hx
        rcases List.mem_cons.mp hx with rfl | hx'
        · exact hc
        · exact hpre x hx'
      · rw [if_neg hc] at h'
        cases h'

theorem mStarGreedy_sound {p : Char → Bool} {k : LC → Option LC} :
    ∀ {s r : LC}, mStarGreedy p k s = some r →
      ∃ pre s', s = pre ++ s' ∧ (∀ c ∈ pre, p c = true) ∧ k s' = some r := by
  intro s
  induction s with
  | nil =>
    intro r h
    exact ⟨[], [], rfl, by simp, by simpa [mStarGreedy] using h⟩
  | cons c t ih =>
    intro r h
    by_cases hc : p c = true
    · cases hg : mStarGreedy p k t with
      | some res =>
        have hres : res = r := by simpa [mStarGreedy, hc, hg] using h
        obtain ⟨pre, s', ht, hpre, hks⟩ := ih (hres ▸ hg)
        refine ⟨c :: pre, s', by rw [ht]; rfl, ?_, hks⟩
        intro x hx
        rcases List.mem_cons.mp hx with rfl | hx'
        · exact hc
        · exact hpre x hx'
      | none =>
        refine ⟨[], c :: t, rfl, by simp, ?_⟩
        simpa [mStarGreedy, hc, hg] using h
    · refine ⟨[], c :: t, rfl, by simp, ?_⟩
      simpa [mStarGreedy, hc] using h

theorem mRow_sound {k : LC → Option LC} {s r : LC} (h : mRow k s = some r) :
    ∃ m s', s = m ++ s' ∧ RowShape m ∧ k s' = some r := by
  unfold mRow at h
  obtain ⟨c1, s1, hs, hp1, h⟩ := mSym_sound h
  obtain ⟨mid, s2, hs1, hmid, h⟩ := mStarLazy_sound h
  obtain ⟨c2, s3, hs2, hp2, h⟩ := mSym_sound h
  obtain ⟨c3, s4, hs3, hp3, h⟩ := mSym_sound h
  have hc1 : c1 = '|' := by simpa [isPipeC] using hp1
  have hc2 : c2 = '|' := by simpa [isPipeC] using hp2
  refine ⟨'|' :: (mid ++ ['|', c3]), s4, ?_, ⟨mid, c3, rfl, hmid, hp3⟩, h⟩
  subst hc1 hc2 hs hs1 hs2 hs3
  simp

theorem mRowsStar_sound :
    ∀ (fuel : Nat) {s r : LC}, mRowsStar fuel s = some r →
      ∃ rows, s = rowsFlat rows ++ r ∧ ∀ x ∈ rows, RowShape x
  | 0, s, r, h => by
    have hsr : s = r := by simpa [mRowsStar] using h
    exact ⟨[], by simp [rowsFlat, hsr], by simp⟩
  | fuel + 1, s, r, h => by
    cases hm : mRow (mRowsStar fuel) s with
    | some res =>
      have hres : res = r := by simpa [mRowsStar, hm] using h
      obtain ⟨m, s', hs, hshape, hk⟩ := mRow_sound hm
      obtain ⟨rows, hs', hrows⟩ := mRowsStar_sound fuel (hres ▸ hk)
      refine ⟨m :: rows, ?_, ?_⟩
      · rw [hs, hs']; simp [rowsFlat]
      · intro x hx
        rcases List.mem_cons.mp hx with rfl | hx'
        · exact hshape
        · exact hrows x hx'
    | none =>
      have hsr : s = r := by simpa [mRowsStar, hm] using h
      exact ⟨[], by simp [rowsFlat, hsr], by simp⟩

theorem mPlusRows_sound {s r : LC} (h : mPlusRows s = some r) :
    ∃ rows, rows ≠ [] ∧ s = rowsFlat rows ++ r ∧ ∀ x ∈ rows, RowShape x := by
  unfold mPlusRows at h
  obtain ⟨m, s', hs, hshape, hk⟩ := mRow_sound h
  obtain ⟨rows, hs', hrows⟩ := mRowsStar_sound _ hk
  refine ⟨m :: rows, by simp, by rw [hs, hs']; simp [rowsFlat], ?_⟩
  intro x hx
  rcases List.mem_cons.mp hx with rfl | hx'
  · exact hshape
  · exact hrows x hx'

theorem mTable_sound {s r : LC} (h : mTable s = some r) :
    ∃ m, s = m ++ r ∧ BlockShape m := by
  unfold mTable at h
  obtain ⟨c1, s1, hs, hp1, h⟩ := mSym_sound h
  obtain ⟨hmid, s2, hs1, hhm, h⟩ := mStarLazy_sound h
  obtain ⟨c2, s3, hs2, hp2, h⟩ := mSym_sound h
  obtain ⟨nl1, s4, hs3, hnl1, h⟩ := mSym_sound h
  obtain ⟨sc, s5, hs4, hsc, h⟩ := mSym_sound h
  obtain ⟨sep', s6, hs5, hsep, h⟩ := mStarGreedy_sound h
  obtain ⟨nl2, s7, hs6, hnl2, h⟩ := mSym_sound h
  obtain ⟨rows, hrne, hs7, hrows⟩ := mPlusRows_sound h
  have hc1 : c1 = '|' := by simpa [isPipeC] using hp1
  have hc2 : c2 = '|' := by simpa [isPipeC] using hp2
  refine ⟨'|' :: (hmid ++ '|' :: nl1 :: ((sc :: sep') ++ nl2 :: rowsFlat rows)),
    ?_, ?_⟩
  · subst hc1 hc2 hs hs1 hs2 hs3 hs4 hs5 hs6 hs7
    simp
  · refine ⟨hmid, nl1, sc :: sep', nl2, rows, rfl, hhm, hnl1, by simp, ?_,
      hnl2, hrne, hrows⟩
    intro x hx
    rcases List.mem_cons.mp hx with rfl | hx'
    · exact hsc
    · exact hsep x hx'

theorem take_append_cancel (m r : LC) :
    (m ++ r).take ((m ++ r).length - r.length) = m := by
  rw [List.length_append, Nat.add_sub_cancel]
  exact List.take_left m r

theorem reFindIter_sound :
    ∀ (fuel : Nat) (s b : LC), b ∈ reFindIter fuel s →
      OccursIn b s ∧ BlockShape b
  | 0, s, b, h => by simp [reFindIter] at h
  | fuel + 1, [], b, h => by simp [reFindIter] at h
  | fuel + 1, c :: t, b, h => by
    cases hm : mTable (c :: t) with
    | some suffix =>
      obtain ⟨m, hs, hshape⟩ := mTable_sound hm
      have hmem : b = (c :: t).take ((c :: t).length - suffix.length) ∨
          b ∈ reFindIter fuel suffix := by
        simpa [reFindIter, hm] using h
      rcases hmem with rfl | hb
      · refine ⟨⟨[], suffix, ?_⟩, ?_⟩
        · rw [hs, take_append_cancel]; simp
        · rw [hs, take_append_cancel]; exact hshape
      · obtain ⟨⟨pre, post, hocc⟩, hbs⟩ := reFindIter_sound fuel suffix b hb
        refine ⟨⟨m ++ pre, post, ?_⟩, hbs⟩
        rw [hs, hocc]; simp
    | none =>
      have hb : b ∈ reFindIter fuel t := by simpa [reFindIter, hm] using h
      obtain ⟨⟨pre, post, hocc⟩, hbs⟩ := reFindIter_sound fuel t b hb
      exact ⟨⟨c :: pre, post, by rw [hocc]; rfl⟩, hbs⟩

/-- Every block emitted by the scanner occurs in the input and has the
declarative header/separator/data-lines shape. -/
theorem blocksOf_sound {s : String} {b : LC} (h : b ∈ blocksOf s) :
    OccursIn b s.data ∧ BlockShape b :=
  reFindIter_sound _ _ _ h

/-! ### The table loop as filterMap -/

theorem runTables_eq :
    ∀ (bs : List LC) (acc : List Table × List String),
      bs.foldl tableStep acc =
        (acc.1 ++ bs.filterMap parsedTable, acc.2 ++ bs.filterMap parseDiag)
  | [], acc => by simp
  | b :: bs, acc => by
    rw [List.foldl_cons, runTables_eq bs]
    cases hpb : parseBlock b with
    | ok t => simp [tableStep, parsedTable, parseDiag, hpb]
    | error e => simp [tableStep, parsedTable, parseDiag, hpb]

theorem extract_tables_eq (s : String) :
    extract_tables s = (blocksOf s).filterMap parsedTable := by
  show (runTables (blocksOf s)).1 = _
  unfold runTables
  rw [runTables_eq]
  simp

theorem tableDiags_eq (s : String) :
    tableDiags s = (blocksOf s).filterMap parseDiag := by
  show (runTables (blocksOf s)).2 = _
  unfold runTables
  rw [runTables_eq]
  simp

/-- Every non-empty list of row-shaped lines flattens to a list ending in a
line-break character. -/
theorem rowsFlat_ends_nl :
    ∀ (rows : List LC), rows ≠ [] → (∀ r ∈ rows, RowShape r) →
      ∃ pre c, rowsFlat rows = pre ++ [c] ∧ isNlC c = true
  | [], h, _ => absurd rfl h
  | [r], _, hall => by
    obtain ⟨mid, c, hr, _, hnl⟩ := hall r (List.mem_cons_self r [])
    refine ⟨'|' :: (mid ++ ['|']), c, ?_, hnl⟩
    rw [show rowsFlat [r] = r from by simp [rowsFlat], hr]
    simp
  | r :: r2 :: rs, _, hall => by
    obtain ⟨pre, c, hflat, hnl⟩ := rowsFlat_ends_nl (r2 :: rs) (by simp)
      (fun x hx => hall x (List.mem_cons_of_mem _ hx))
    refine ⟨r ++ pre, c, ?_, hnl⟩
    show r ++ rowsFlat (r2 :: rs) = (r ++ pre) ++ [c]
    rw [hflat]
    simp

/-- A block of the table-pattern shape ends in a line-break character. -/
theorem blockShape_ends_nl {m : LC} (h : BlockShape m) :
    ∃ pre c, m = pre ++ [c] ∧ isNlC c = true := by
  obtain ⟨hmid, nl1, sep, nl2, rows, hm, _, _, _, _, _, hrne, hrows⟩ := h
  obtain ⟨pre, c, hflat, hnl⟩ := rowsFlat_ends_nl rows hrne hrows
  refine ⟨'|' :: (hmid ++ '|' :: nl1 :: (sep ++ nl2 :: pre)), c, ?_, hnl⟩
  rw [hm, hflat]
  simp

/-! ### The claims -/

/-- Claim C1, counterexample: on the input
`"1. Intro\nHello world\n\n2. Details\nMore text\n"` the code does NOT
return `{"Intro": "Hello world", "Details": "More text"}` — the title is
`line.strip('*# \n')`, which keeps leading digits and the dot. -/
theorem c1_counterexample :
    extract_sections "1. Intro\nHello world\n\n2. Details\nMore text\n" ≠
      [("Intro", "Hello world"), ("Details", "More text")] := by decide

/-- Claim C1, amended: on that input the mapping is
`{"1. Intro": "Hello world", "2. Details": "More text"}` in that order, and
in general every key of the result is a heading line of the input with `*`,
`#`, space and newline stripped from both ends — digit and dot markup is
kept. -/
theorem c1_amended :
    extract_sections "1. Intro\nHello world\n\n2. Details\nMore text\n" =
      [("1. Intro", "Hello world"), ("2. Details", "More text")] ∧
    ∀ (s : String), ∀ p ∈ extract_sections s,
      ∃ line ∈ splitNl s.data, isHeading line = true ∧
        p.1 = (⟨stripBoth isTitleStripC line⟩ : String) :=
  ⟨by decide, fun s => extract_sections_key_prov s⟩

/-- Claim C1, amended, witness at the example input and its first entry. -/
theorem c1_amended_witness :
    ("1. Intro", "Hello world") ∈
      extract_sections "1. Intro\nHello world\n\n2. Details\nMore text\n" ∧
    ∃ line ∈ splitNl ("1. Intro\nHello world\n\n2. Details\nMore text\n" :
        String).data,
      isHeading line = true ∧
      ("1. Intro", "Hello world").1 = (⟨stripBoth isTitleStripC line⟩ : String) :=
  ⟨by decide,
    c1_amended.2 "1. Intro\nHello world\n\n2. Details\nMore text\n"
      ("1. Intro", "Hello world") (by decide)⟩

/-- Claim C2: when a title is committed at least twice, the mapping holds it
exactly once, with the value of the last commit (`finalVal` of the commit
trace), and the key order of the mapping is the order of first commits. -/
theorem c2_duplicate_titles :
    ∀ (s t : String),
      2 ≤ ((secTrace s).filter (fun p => p.1 == t)).length →
      ((extract_sections s).map Prod.fst).count t = 1 ∧
      lookupS (extract_sections s) t = finalVal (secTrace s) t ∧
      (extract_sections s).map Prod.fst =
        firstKeys ((secTrace s).map Prod.fst) := by
  intro s t h2
  have hbr := extract_sections_eq_foldIns s
  have hkeys : (extract_sections s).map Prod.fst =
      firstKeys ((secTrace s).map Prod.fst) := by
    rw [hbr]
    unfold foldIns firstKeys
    rw [keys_foldl]
    rfl
  refine ⟨?_, ?_, hkeys⟩
  · have hmem : t ∈ (secTrace s).map Prod.fst := by
      have hne : (secTrace s).filter (fun p => p.1 == t) ≠ [] := by
        intro he
        rw [he] at h2
        simp at h2
      obtain ⟨p, hp⟩ := List.exists_mem_of_ne_nil _ hne
      obtain ⟨hpl, hpt⟩ := List.mem_filter.mp hp
      exact List.mem_map.mpr ⟨p, hpl, by simpa using hpt⟩
    have hmem' : t ∈ (extract_sections s).map Prod.fst := by
      rw [hkeys]
      exact (mem_firstKeysAux _ _ _).mpr (Or.inr hmem)
    have hnd : ((extract_sections s).map Prod.fst).Nodup := by
      rw [hkeys]
      exact nodup_firstKeysAux _ _ List.nodup_nil
    exact List.count_eq_one_of_mem hnd hmem'
  · rw [hbr]
    unfold foldIns
    rw [lookupS_foldl]
    cases hfv : finalVal (secTrace s) t <;> simp [lookupS]

/-- Claim C2, witness: the title "1. A" is committed twice; the mapping
holds it once, with the later body, at the first-commit position. -/
theorem c2_duplicate_titles_witness :
    2 ≤ ((secTrace "1. A\nx\n2. B\ny\n1. A\nz\n").filter
        (fun p => p.1 == ("1. A" : String))).length ∧
    (((extract_sections "1. A\nx\n2. B\ny\n1. A\nz\n").map Prod.fst).count
        ("1. A" : String) = 1 ∧
      lookupS (extract_sections "1. A\nx\n2. B\ny\n1. A\nz\n") "1. A" =
        finalVal (secTrace "1. A\nx\n2. B\ny\n1. A\nz\n") "1. A" ∧
      (extract_sections "1. A\nx\n2. B\ny\n1. A\nz\n").map Prod.fst =
        firstKeys ((secTrace "1. A\nx\n2. B\ny\n1. A\nz\n").map Prod.fst)) :=
  ⟨by decide, c2_duplicate_titles "1. A\nx\n2. B\ny\n1. A\nz\n" "1. A"
    (by decide)⟩

/-- Claim C3: the table loop cannot abort: for every input the returned
sequence is exactly the successfully parsed blocks, in block order, and
each failing block is dropped individually, contributing exactly one
non-fatal diagnostic. -/
theorem c3_error_recovery (s : String) :
    extract_tables s = (blocksOf s).filterMap parsedTable ∧
    tableDiags s = (blocksOf s).filterMap parseDiag :=
  ⟨extract_tables_eq s, tableDiags_eq s⟩

/-- Claim C4: a header with no separator, or a header and separator with no
data line, is not matched at all, and any input yielding a non-empty result
contains a block of the header/separator/data-lines shape. -/
theorem c4_block_structure :
    extract_tables "|a|b|\n" = [] ∧
    extract_tables "|a|b|\n|-|-|\n" = [] ∧
    ∀ s : String, extract_tables s ≠ [] →
      ∃ b, OccursIn b s.data ∧ BlockShape b := by
  refine ⟨by decide, by decide, ?_⟩
  intro s hne
  have hb : blocksOf s ≠ [] := by
    intro he
    apply hne
    rw [extract_tables_eq, he]
    rfl
  obtain ⟨b, hbmem⟩ := List.exists_mem_of_ne_nil _ hb
  obtain ⟨hocc, hshape⟩ := blocksOf_sound hbmem
  exact ⟨b, hocc, hshape⟩

/-- Claim C4, witness: an input with a non-empty result, hence containing a
block of the required shape. -/
theorem c4_block_structure_witness :
    extract_tables "H|c1|c2|\n|-|-|\n|a|b|\n" ≠ [] ∧
    ∃ b, OccursIn b ("H|c1|c2|\n|-|-|\n|a|b|\n" : String).data ∧ BlockShape b :=
  ⟨by decide, c4_block_structure.2.2 "H|c1|c2|\n|-|-|\n|a|b|\n" (by decide)⟩

/-- Claim C5: no entry of the result mapping has an empty body, and on
`"**Bold**\n\n**Bold2**\nBody\n"` the empty-bodied "Bold" section is
dropped while "Bold2" is kept. -/
theorem c5_no_empty_bodies :
    (∀ (s : String), ∀ p ∈ extract_sections s, p.2 ≠ "") ∧
    extract_sections "**Bold**\n\n**Bold2**\nBody\n" = [("Bold2", "Body")] := by
  constructor
  · intro s
    exact extract_sections_entry_sound (fun t b _ hb => string_mk_ne_empty hb) s
  · decide

/-- Claim C5, witness at the example input and its single entry. -/
theorem c5_no_empty_bodies_witness :
    ("Bold2", "Body") ∈ extract_sections "**Bold**\n\n**Bold2**\nBody\n" ∧
    ("Bold2", "Body").2 ≠ "" :=
  ⟨by decide,
    c5_no_empty_bodies.1 "**Bold**\n\n**Bold2**\nBody\n" ("Bold2", "Body")
      (by decide)⟩

/-- Claim C6: the block with header `H|c1|c2|`, separator `|-|-|` and data
line `|a|b|` yields one table with columns `["c1","c2"]` and the single row
`["a","b"]`, for LF and for CRLF line termination. -/
theorem c6_example_block :
    extract_tables "H|c1|c2|\n|-|-|\n|a|b|\n" =
      [{ columns := ["c1", "c2"], rows := [["a", "b"]] }] ∧
    extract_tables "H|c1|c2|\r\n|-|-|\r\n|a|b|\r\n" =
      [{ columns := ["c1", "c2"], rows := [["a", "b"]] }] :=
  ⟨by decide, by decide⟩

/-- Claim C7: `extract_sections` is total (it is a Lean function); the empty
string yields the empty mapping, and so does any input none of whose lines
is a heading. -/
theorem c7_totality :
    extract_sections "" = [] ∧
    ∀ s : String, (∀ l ∈ splitNl s.data, isHeading l = false) →
      extract_sections s = [] := by
  refine ⟨by decide, ?_⟩
  intro s h
  show commitSt ((splitNl s.data).foldl secStep initSt) = []
  rw [no_heading_fold _ h]
  rfl

/-- Claim C7, witness: a heading-free input yields the empty mapping. -/
theorem c7_totality_witness :
    (∀ l ∈ splitNl ("hello\nworld" : String).data, isHeading l = false) ∧
    extract_sections "hello\nworld" = [] :=
  ⟨by decide, c7_totality.2 "hello\nworld" (by decide)⟩

/-- Claim C8: the result mapping never has the empty string as a key; a
state whose current title is empty commits nothing, and non-heading lines
arriving in such a state are discarded (the state is unchanged). -/
theorem c8_no_empty_title :
    (∀ (s : String), ∀ p ∈ extract_sections s, p.1 ≠ "") ∧
    (∀ (st : SecSt), st.cur = some [] → commitSt st = st.sections) ∧
    (∀ (st : SecSt) (line : LC), st.cur = some [] → isHeading line = false →
      secStep st line = st) := by
  refine ⟨?_, ?_, ?_⟩
  · intro s
    exact extract_sections_entry_sound (fun t b ht _ => string_mk_ne_empty ht) s
  · intro st hc
    exact commitSt_empty_title hc
  · intro st line hc hh
    exact secStep_discard hc hh

/-- Claim C8, witness: a concrete entry has a non-empty key, and a concrete
empty-title state discards a concrete non-heading line. -/
theorem c8_no_empty_title_witness :
    (("1. T", "b") ∈ extract_sections "1. T\nb\n" ∧ ("1. T", "b").1 ≠ "") ∧
    secStep ⟨[], some [], []⟩ ("body" : String).data = ⟨[], some [], []⟩ :=
  ⟨⟨by decide, c8_no_empty_title.1 "1. T\nb\n" ("1. T", "b") (by decide)⟩,
    c8_no_empty_title.2.2 ⟨[], some [], []⟩ ("body" : String).data rfl
      (by decide)⟩

/-- Claim C9: a block whose only data row is unterminated is not matched;
an unterminated trailing data row is excluded from its table; and every
matched block ends with a line-break character. -/
theorem c9_rows_need_newline :
    extract_tables "|h|\n|-|\n|a|" = [] ∧
    extract_tables "|h|\n|-|\n|a|\n|b|" =
      [{ columns := ["h"], rows := [["a"]] }] ∧
    ∀ (s : String) (b : LC), b ∈ blocksOf s →
      ∃ pre c, b = pre ++ [c] ∧ isNlC c = true := by
  refine ⟨by decide, by decide, ?_⟩
  intro s b hb
  exact blockShape_ends_nl (blocksOf_sound hb).2

/-- Claim C9, witness: the matched block of the second example ends in a
line break. -/
theorem c9_rows_need_newline_witness :
    ("|h|\n|-|\n|a|\n" : String).data ∈ blocksOf "|h|\n|-|\n|a|\n|b|" ∧
    ∃ pre c, ("|h|\n|-|\n|a|\n" : String).data = pre ++ [c] ∧ isNlC c = true :=
  ⟨by decide,
    c9_rows_need_newline.2.2 "|h|\n|-|\n|a|\n|b|"
      ("|h|\n|-|\n|a|\n" : String).data (by decide)⟩

/-- Claim C10: the match of a block starts at the first pipe of the header
line: the prefix `Costs:` is excluded from the matched block, and the
column names come from the fields between the pipes of the rest of the
line. -/
theorem c10_header_not_anchored :
    blocksOf "Costs:|A|B|\n|-|-|\n|1|2|\n" =
      [("|A|B|\n|-|-|\n|1|2|\n" : String).data] ∧
    extract_tables "Costs:|A|B|\n|-|-|\n|1|2|\n" =
      [{ columns := ["A", "B"], rows := [["1", "2"]] }] :=
  ⟨by decide, by decide⟩

end App
